import Mathlib

/-!
A shallow embedding of `FWCore/Framework/src/GlobalSchedule.cc` (namespace
`edm`, class `GlobalSchedule`): the global-transition scheduler that owns one
`WorkerManager` per concurrency slot, drives the begin-job/end-job
transitions, supports live module replacement/removal, and enriches
exceptions with context.

Collaborator classes whose code is not part of the translated source
(`WorkerManager`, `Worker`, `ExceptionCollector`, the exception helpers and
the `GlobalSchedule.h` declarations) are modelled from the specification;
each such definition carries a doc comment saying so.
-/

set_option autoImplicit false

namespace GlobalScheduleModel

/-- Transition kinds of a `GlobalContext` (`GlobalContext::Transition` in the
source); only the two kinds used by `GlobalSchedule` are modelled. -/
inductive Transition where
  | kBeginJob
  | kEndJob
deriving DecidableEq, Repr

/-- A `GlobalContext`: an immutable pairing of a transition kind with the
process context (the `ProcessContext` is abstracted to its textual identity). -/
structure GlobalContext where
  transition : Transition
  processContext : String
deriving DecidableEq, Repr

/-- A `ModuleDescription`: the immutable descriptor of a module, abstracted to
its module label. -/
structure ModuleDescription where
  moduleLabel : String
deriving DecidableEq, Repr

/-- Modelled from the spec: a `Worker` (class not under src/) wraps one module
implementation inside one slot. `workerId` models the object identity of the
Worker, `impl` the replaceable implementation handle, and `beginJobCalls`
records the `GlobalContext` of every begin-job invocation the Worker received. -/
structure Worker where
  workerId : Nat
  description : ModuleDescription
  impl : Nat
  beginJobCalls : List GlobalContext
deriving DecidableEq, Repr

/-- Modelled from the spec: `Worker::beginJob` runs the begin-job transition on
the wrapped module, observable here as recording the `GlobalContext` it was
handed. Identity, descriptor and implementation handle are untouched. -/
def Worker.beginJob (w : Worker) (gc : GlobalContext) : Worker :=
  { w with beginJobCalls := w.beginJobCalls ++ [gc] }

/-- Modelled from the spec: a `WorkerManager` (SlotManager, class not under
src/) owns the label-to-Worker mapping of one concurrency slot, held as its
list of Workers. -/
structure WorkerManager where
  workers : List Worker
deriving DecidableEq, Repr

/-- Whether this manager holds a Worker for the given module label. -/
def WorkerManager.hasLabel (wm : WorkerManager) (label : String) : Bool :=
  wm.workers.any (fun w => w.description.moduleLabel == label)

/-- Modelled from the spec: `WorkerManager::getWorker` is an idempotent
request — a Worker already present for the label is returned unchanged,
otherwise a fresh Worker (identity `fresh`, implementation handle `0`) is
created for the label. The second component threads the fresh-identity
supply. -/
def WorkerManager.getWorker (wm : WorkerManager) (label : String) (fresh : Nat) :
    WorkerManager × Nat :=
  if wm.hasLabel label then (wm, fresh)
  else (⟨wm.workers ++ [⟨fresh, ⟨label⟩, 0, []⟩]⟩, fresh + 1)

/-- Modelled from the spec: `WorkerManager::deleteModuleIfExists` removes the
Worker bound to the label when present; absence is not an error. -/
def WorkerManager.deleteModuleIfExists (wm : WorkerManager) (label : String) :
    WorkerManager :=
  ⟨wm.workers.filter (fun w => !(w.description.moduleLabel == label))⟩

/-- Modelled from the spec: `WorkerManager::beginJob` runs the begin-job
transition of every Worker owned by this manager (a failure part-way is
abstracted: the workers are recorded as visited and the failure is reported by
the caller's outcome environment). -/
def WorkerManager.beginJobRun (wm : WorkerManager) (gc : GlobalContext) :
    WorkerManager :=
  ⟨wm.workers.map (fun w => w.beginJob gc)⟩

/-- One constructor loop iteration of `GlobalSchedule::GlobalSchedule`
(GlobalSchedule.cc lines 55-58 and the inserter loops at lines 61-80): request
a Worker for `label` from every `WorkerManager`, threading the fresh-identity
supply. -/
def addWorkerAllManagers (label : String) :
    List WorkerManager → Nat → List WorkerManager × Nat
  | [], fresh => ([], fresh)
  | wm :: rest, fresh =>
    let p := wm.getWorker label fresh
    let q := addWorkerAllManagers label rest p.2
    (p.1 :: q.1, q.2)

/-- The constructor loop over `iModulesToUse` (GlobalSchedule.cc lines 47-60):
labels whose configuration lookup (`getPSetForUpdate`) returns a configuration
get a Worker in every manager; a null lookup (path-status inserter labels) is
skipped. -/
def addModulesToUse (config : String → Bool) :
    List String → List WorkerManager → Nat → List WorkerManager × Nat
  | [], ms, fresh => (ms, fresh)
  | l :: rest, ms, fresh =>
    if config l then
      let p := addWorkerAllManagers l ms fresh
      addModulesToUse config rest p.1 p.2
    else addModulesToUse config rest ms fresh

/-- The constructor loops over `pathStatusInserters` and
`endPathStatusInserters` (GlobalSchedule.cc lines 67-80): each inserter module
is added to every manager via `getWorkerForModule`, modelled like `getWorker`
keyed by the inserter's label. -/
def addInserterList :
    List String → List WorkerManager → Nat → List WorkerManager × Nat
  | [], ms, fresh => (ms, fresh)
  | l :: rest, ms, fresh =>
    let p := addWorkerAllManagers l ms fresh
    addInserterList rest p.1 p.2

/-- The `GlobalSchedule` state: the slot counts kept by the class and the
ordered array of `WorkerManager`s. The process-block and job slot counts are
the constants `1` in `GlobalSchedule.h` (not under src/); following the spec
the process-block count is kept as the parameter `numberOfConcurrentProcessBlocks`
while the job count stays `1`. -/
structure GlobalSchedule where
  numberOfConcurrentLumis : Nat
  numberOfConcurrentRuns : Nat
  numberOfConcurrentProcessBlocks : Nat
  processContext : String
  workerManagers : List WorkerManager
deriving DecidableEq, Repr

/-- The index of the distinguished job slot,
`numberOfConcurrentLumis_ + numberOfConcurrentRuns_ + numberOfConcurrentProcessBlocks_`
(GlobalSchedule.cc lines 85-86, 117-118, 147-148). -/
def GlobalSchedule.jobManagerIndex (gs : GlobalSchedule) : Nat :=
  gs.numberOfConcurrentLumis + gs.numberOfConcurrentRuns +
    gs.numberOfConcurrentProcessBlocks

/-- `GlobalSchedule::GlobalSchedule` (GlobalSchedule.cc lines 24-81): allocate
`L + R + P + 1` WorkerManagers, give every manager a Worker for each module
label whose configuration lookup succeeds, then add the trigger-result
inserter (when present) and the path-status/end-path-status inserters to every
manager. -/
def GlobalSchedule.construct (L R P : Nat) (pc : String)
    (modulesToUse : List String) (config : String → Bool)
    (inserter : Option String)
    (pathStatusInserters endPathStatusInserters : List String) : GlobalSchedule :=
  let ms0 : List WorkerManager := List.replicate (L + R + P + 1) ⟨[]⟩
  let s1 := addModulesToUse config modulesToUse ms0 0
  let s2 := match inserter with
            | some lbl => addWorkerAllManagers lbl s1.1 s1.2
            | none => s1
  let s3 := addInserterList pathStatusInserters s2.1 s2.2
  let s4 := addInserterList endPathStatusInserters s3.1 s3.2
  ⟨L, R, P, pc, s4.1⟩

/-- A `cms::Exception`, abstracted to a message plus the list of context
entries returned by `cms::Exception::context()`. -/
structure CmsException where
  message : String
  context : List String
deriving DecidableEq, Repr

/-- Modelled from the spec: the textual description of a `GlobalContext`
(transition kind plus process context) produced by the stream overload of
`edm::exceptionContext` (not under src/). -/
def globalContextText (gc : GlobalContext) : String :=
  "Processing " ++
    (match gc.transition with
     | Transition.kBeginJob => "global begin Job"
     | Transition.kEndJob => "global end Job") ++
    " " ++ gc.processContext

/-- Modelled from the spec: the three-argument overload of
`edm::exceptionContext` (not under src/) used in beginJob/endJob appends one
context entry describing the `GlobalContext`, prefixed by the message. -/
def exceptionContextAdd (ex : CmsException) (gc : GlobalContext) (msg : String) :
    CmsException :=
  { ex with context := ex.context ++ [msg ++ ": " ++ globalContextText gc] }

/-- Outcomes of the collaborator calls made during `beginJob`: `none` means the
call returned normally, `some ex` that it threw `ex`. `transitionFailure` is
the outcome of the job-slot manager's begin-job transition. -/
structure SignalOutcomes where
  preSignal : Option CmsException
  transitionFailure : Option CmsException
  postSignal : Option CmsException
deriving DecidableEq, Repr

/-- Replace the manager at one index, leaving every other slot untouched
(the source's `workerManagers_[managerIndex]` element access). -/
def modifyAt (f : WorkerManager → WorkerManager) :
    Nat → List WorkerManager → List WorkerManager
  | _, [] => []
  | 0, wm :: rest => f wm :: rest
  | n + 1, wm :: rest => wm :: modifyAt f n rest

/-- The observable result of `GlobalSchedule::beginJob`: the updated state,
whether the post-begin-job signal was invoked, and the exception rethrown to
the caller (if any). -/
structure BeginJobResult where
  schedule : GlobalSchedule
  postSignalInvoked : Bool
  thrown : Option CmsException
deriving DecidableEq, Repr

/-- `GlobalSchedule::beginJob` (GlobalSchedule.cc lines 83-112): run the
pre-begin-job signal, on success run begin-job on the job slot's manager only;
a pre-signal failure is enriched and stored, skipping the transition. The
post-begin-job signal always runs; its failure is kept only when no earlier
failure is pending. Whatever failure is pending is rethrown. -/
def GlobalSchedule.beginJob (gs : GlobalSchedule) (env : SignalOutcomes) :
    BeginJobResult :=
  let gc : GlobalContext := ⟨Transition.kBeginJob, gs.processContext⟩
  let firstBlock : List WorkerManager × Option CmsException :=
    match env.preSignal with
    | some ex =>
      (gs.workerManagers,
       some (exceptionContextAdd ex gc
         "Handling pre signal, likely in a service function"))
    | none =>
      (modifyAt (fun wm => wm.beginJobRun gc) gs.jobManagerIndex gs.workerManagers,
       env.transitionFailure)
  let exceptionPtr : Option CmsException :=
    match env.postSignal, firstBlock.2 with
    | some ex, none =>
      some (exceptionContextAdd ex gc
        "Handling post signal, likely in a service function")
    | _, e => e
  ⟨{ gs with workerManagers := firstBlock.1 }, true, exceptionPtr⟩

/-- Modelled from the spec: an `ExceptionCollector` (FWCore/Utilities, not
under src/) accumulates independent failures for aggregate, non-fatal
reporting. -/
structure ExceptionCollector where
  exceptions : List CmsException
deriving DecidableEq, Repr

/-- Modelled from the spec: `ExceptionCollector::call` runs an action and
stores any exception the action throws, never rethrowing. In
`GlobalSchedule::endJob` the action is the rethrow of `exceptionPtr`, so that
exception is stored. -/
def ExceptionCollector.callRethrow (c : ExceptionCollector) (ex : CmsException) :
    ExceptionCollector :=
  ⟨c.exceptions ++ [ex]⟩

/-- Modelled from the spec: `WorkerManager::endJob` runs every Worker's
end-job, collecting each per-Worker failure into the collector instead of
throwing; the per-Worker failures are supplied by `fails`. -/
def WorkerManager.endJobRun (wm : WorkerManager) (c : ExceptionCollector)
    (fails : List CmsException) : ExceptionCollector :=
  ⟨c.exceptions ++ fails⟩

/-- Outcomes of the collaborator calls made during `endJob`. `workerFailures`
are the per-Worker end-job failures the job slot's manager collects. -/
structure EndJobOutcomes where
  preSignal : Option CmsException
  workerFailures : List CmsException
  postSignal : Option CmsException
deriving DecidableEq, Repr

/-- The observable result of `GlobalSchedule::endJob`: the collector as left by
the call, whether the post-end-job signal was invoked, and the exception
thrown to the caller (if any). -/
structure EndJobResult where
  collector : ExceptionCollector
  postSignalInvoked : Bool
  thrown : Option CmsException
deriving DecidableEq, Repr

/-- `GlobalSchedule::endJob` (GlobalSchedule.cc lines 114-143): same staged
pattern as `beginJob`, but the job-slot manager reports per-Worker failures
into the collector, and the terminal pending failure (earliest wins) is handed
to `ExceptionCollector::call` instead of being rethrown. -/
def GlobalSchedule.endJob (gs : GlobalSchedule) (env : EndJobOutcomes)
    (collector : ExceptionCollector) : EndJobResult :=
  let gc : GlobalContext := ⟨Transition.kEndJob, gs.processContext⟩
  let firstBlock : ExceptionCollector × Option CmsException :=
    match env.preSignal with
    | some ex =>
      (collector,
       some (exceptionContextAdd ex gc
         "Handling pre signal, likely in a service function"))
    | none =>
      ((gs.workerManagers.getD gs.jobManagerIndex ⟨[]⟩).endJobRun collector
         env.workerFailures,
       none)
  let exceptionPtr : Option CmsException :=
    match env.postSignal, firstBlock.2 with
    | some ex, none =>
      some (exceptionContextAdd ex gc
        "Handling post signal, likely in a service function")
    | _, e => e
  match exceptionPtr with
  | some ex => ⟨firstBlock.1.callRethrow ex, true, none⟩
  | none => ⟨firstBlock.1, true, none⟩

/-- The first matching Worker for a label in this manager (the inner search
loop of `GlobalSchedule::replaceModule`, GlobalSchedule.cc lines 150-155). -/
def WorkerManager.findWorkerWithLabel (wm : WorkerManager) (label : String) :
    Option Worker :=
  wm.workers.find? (fun w => w.description.moduleLabel == label)

/-- Apply `f` to the Worker carrying object identity `fid` in this manager
(the C++ mutation through the `found` pointer). -/
def WorkerManager.mapWorkerById (wm : WorkerManager) (fid : Nat)
    (f : Worker → Worker) : WorkerManager :=
  ⟨wm.workers.map (fun w => if w.workerId == fid then f w else w)⟩

/-- Apply `f` to the Worker carrying object identity `fid` wherever it lives
among the managers. -/
def mapWorkerByIdAll (ms : List WorkerManager) (fid : Nat) (f : Worker → Worker) :
    List WorkerManager :=
  ms.map (fun wm => wm.mapWorkerById fid f)

/-- The effect applied through the `found` pointer in
`GlobalSchedule::replaceModule`: `iMod->replaceModuleFor(found)` swaps the
implementation handle (modelled from the spec: identity and descriptor are
preserved), and exactly on the job slot iteration `found->beginJob(...)` then
runs begin-job on that Worker with a freshly built GlobalContext. -/
def replaceF (newImpl : Nat) (jobSlot : Bool) (pc : String) : Worker → Worker :=
  fun w =>
    if jobSlot then
      Worker.beginJob { w with impl := newImpl } ⟨Transition.kBeginJob, pc⟩
    else { w with impl := newImpl }

/-- The loop of `GlobalSchedule::replaceModule` (GlobalSchedule.cc lines
145-168). `found` (the identity of the most recently found Worker for the
label) is shared across iterations and never reset; when the current manager
has no Worker for the label it keeps pointing at the earlier find, and the
early return fires only while it is still null. The in-place mutation of the
found Worker is modelled as mapping over every Worker carrying its identity;
`done` are the managers already iterated past. -/
def replaceModuleGo (newImpl : Nat) (label : String) (jobIdx : Nat) (pc : String) :
    Option Nat → Nat → List WorkerManager → List WorkerManager →
      List WorkerManager
  | _, _, done, [] => done
  | found, idx, done, wm :: rest =>
    let found2 := match wm.findWorkerWithLabel label with
                  | some w => some w.workerId
                  | none => found
    match found2 with
    | none => done ++ wm :: rest
    | some fid =>
      let f : Worker → Worker := replaceF newImpl (idx == jobIdx) pc
      replaceModuleGo newImpl label jobIdx pc (some fid) (idx + 1)
        (mapWorkerByIdAll done fid f ++ [wm.mapWorkerById fid f])
        (mapWorkerByIdAll rest fid f)
termination_by found idx done rest => rest.length
decreasing_by
  simp [mapWorkerByIdAll]

/-- `GlobalSchedule::replaceModule` (GlobalSchedule.cc lines 145-168). -/
def GlobalSchedule.replaceModule (gs : GlobalSchedule) (newImpl : Nat)
    (label : String) : GlobalSchedule :=
  { gs with
    workerManagers :=
      replaceModuleGo newImpl label gs.jobManagerIndex gs.processContext
        none 0 [] gs.workerManagers }

/-- `GlobalSchedule::deleteModule` (GlobalSchedule.cc lines 170-174): ask every
manager to remove its Worker for the label when present. -/
def GlobalSchedule.deleteModule (gs : GlobalSchedule) (label : String) :
    GlobalSchedule :=
  { gs with
    workerManagers := gs.workerManagers.map
      (fun wm => wm.deleteModuleIfExists label) }

/-- Modelled from the spec: `GlobalSchedule::allWorkers` (declared in
`GlobalSchedule.h`, not under src/) — the union, across all slots, of the
Workers of every WorkerManager. -/
def allWorkersOf : List WorkerManager → List Worker
  | [] => []
  | wm :: rest => wm.workers ++ allWorkersOf rest

/-- `GlobalSchedule::getAllModuleDescriptions` (GlobalSchedule.cc lines
176-185): the descriptor of every Worker, in slot order. -/
def GlobalSchedule.getAllModuleDescriptions (gs : GlobalSchedule) :
    List ModuleDescription :=
  (allWorkersOf gs.workerManagers).map (fun w => w.description)

/-- Modelled from the spec: `addContextAndPrintException` (FWCore, not under
src/) appends the given context string to the exception when the string is
nonempty, then prints the exception. -/
def addContextAndPrintException (context : String) (ex : CmsException) :
    CmsException :=
  if context = "" then ex else { ex with context := ex.context ++ [context] }

/-- The context-enrichment step of `GlobalSchedule::handleException`
(GlobalSchedule.cc lines 192-204): the textual `GlobalContext` description is
produced only when the exception carries no context yet, and is then handed to
`addContextAndPrintException`. -/
def enrichExceptionStep (gc : GlobalContext) (ex : CmsException) : CmsException :=
  let ost := if ex.context = [] then globalContextText gc else ""
  addContextAndPrintException ost ex

/-- `GlobalSchedule::handleException` (GlobalSchedule.cc lines 187-214):
enrich and report the exception held in the in/out slot, then broadcast the
early-termination signal, swallowing any exception the broadcast raises
(`broadcastOutcome` is its outcome); the in/out slot ends up holding the
enriched exception. -/
def handleException (gc : GlobalContext) (cleaningUpAfterException : Bool)
    (broadcastOutcome : Option CmsException) (excpt : CmsException) :
    CmsException :=
  let excpt1 := enrichExceptionStep gc excpt
  match broadcastOutcome with
  | some _ => excpt1
  | none => excpt1

/-- The Worker object identities held by one manager. -/
def idsOf (wm : WorkerManager) : List Nat :=
  wm.workers.map (fun w => w.workerId)

/-- The Worker object identities held across a list of managers. -/
def allIds : List WorkerManager → List Nat
  | [] => []
  | wm :: rest => idsOf wm ++ allIds rest

/-- Every manager of the list holds a Worker for the label. -/
def allHave (ms : List WorkerManager) (label : String) : Prop :=
  ∀ wm ∈ ms, wm.hasLabel label = true

/-- The spec's per-slot effect of `replaceModule` (spec 4.4): the slot's own
Worker for the label keeps its identity and descriptor but gets the new
implementation handle, and exactly when the slot is the job slot it
additionally receives one begin-job invocation with a freshly built
`GlobalContext` of kind `kBeginJob`; every other Worker is untouched. -/
def replaceModuleSpecOne (newImpl : Nat) (label : String) (isJobSlot : Bool)
    (pc : String) (wm : WorkerManager) : WorkerManager :=
  ⟨wm.workers.map (fun w =>
    if w.description.moduleLabel == label then
      replaceF newImpl isJobSlot pc w
    else w)⟩

/-- The spec's whole-array effect of `replaceModule`, slot by slot starting at
slot index `i`: the manager at the job index is the one treated as the job
slot. -/
def replaceModuleSpecFrom (newImpl : Nat) (label : String) (jobIdx : Nat)
    (pc : String) : Nat → List WorkerManager → List WorkerManager
  | _, [] => []
  | i, wm :: rest =>
    replaceModuleSpecOne newImpl label (i == jobIdx) pc wm ::
      replaceModuleSpecFrom newImpl label jobIdx pc (i + 1) rest

/-- The spec's reading of `getAllModuleDescriptions` (spec 4.6): the union,
slot by slot, of every Worker's descriptor. -/
def descriptionsSlotBySlot : List WorkerManager → List ModuleDescription
  | [] => []
  | wm :: rest =>
    wm.workers.map (fun w => w.description) ++ descriptionsSlotBySlot rest

/-- A concrete symmetric two-slot state (job slot index 1): slot 0. -/
def sampleManagerA : WorkerManager :=
  ⟨[⟨0, ⟨"a"⟩, 0, []⟩, ⟨2, ⟨"b"⟩, 0, []⟩]⟩

/-- A concrete symmetric two-slot state (job slot index 1): slot 1. -/
def sampleManagerB : WorkerManager :=
  ⟨[⟨1, ⟨"a"⟩, 0, []⟩, ⟨3, ⟨"b"⟩, 0, []⟩]⟩

/-- A concrete symmetric schedule with slot counts (1, 0, 0), job slot 1. -/
def sampleSchedule : GlobalSchedule :=
  ⟨1, 0, 0, "pc", [sampleManagerA, sampleManagerB]⟩

/-- A schedule violating the symmetry invariant: label `a` exists only in slot
0, while the job slot (index 1) holds only label `b`. -/
def staleSchedule : GlobalSchedule :=
  ⟨1, 0, 0, "pc", [⟨[⟨0, ⟨"a"⟩, 0, []⟩]⟩, ⟨[⟨1, ⟨"b"⟩, 0, []⟩]⟩]⟩

/-- A concrete constructed schedule: slot counts (1, 0, 0), module labels `a`
and `b` (all configured), a trigger-result inserter `TR` and one path-status
inserter `ps1`. -/
def constructedSchedule : GlobalSchedule :=
  GlobalSchedule.construct 1 0 0 "pc" ["a", "b"] (fun _ => true) (some "TR")
    ["ps1"] []

/-- Slot 0 of `constructedSchedule`, spelled out. -/
def constructedManager0 : WorkerManager :=
  ⟨[⟨0, ⟨"a"⟩, 0, []⟩, ⟨2, ⟨"b"⟩, 0, []⟩, ⟨4, ⟨"TR"⟩, 0, []⟩,
    ⟨6, ⟨"ps1"⟩, 0, []⟩]⟩

lemma globalContextText_ne_empty (gc : GlobalContext) :
    globalContextText gc ≠ "" := by
  unfold globalContextText
  intro h
  have hl := congrArg String.length h
  simp [String.length_append] at hl
  exact absurd hl.1.1.1 (by decide)

lemma enrichExceptionStep_of_ne_nil (gc : GlobalContext) (ex : CmsException)
    (h : ex.context ≠ []) : enrichExceptionStep gc ex = ex := by
  simp [enrichExceptionStep, addContextAndPrintException, h]

lemma enrichExceptionStep_of_nil (gc : GlobalContext) (ex : CmsException)
    (h : ex.context = []) :
    enrichExceptionStep gc ex = { ex with context := [globalContextText gc] } := by
  simp [enrichExceptionStep, addContextAndPrintException, h,
    globalContextText_ne_empty gc]

/-- C7: exception enrichment in `handleException` is idempotent — the context
text is appended only when the exception's context is empty, an exception
already carrying context is left unchanged, and applying the enrichment step
twice yields identical context text to applying it once. -/
theorem enrichment_idempotent (gc : GlobalContext) (ex : CmsException) :
    enrichExceptionStep gc (enrichExceptionStep gc ex) = enrichExceptionStep gc ex
    ∧ (ex.context ≠ [] → enrichExceptionStep gc ex = ex)
    ∧ (ex.context = [] →
        (enrichExceptionStep gc ex).context = [globalContextText gc]) := by
  refine ⟨?_, fun h => enrichExceptionStep_of_ne_nil gc ex h,
    fun h => by rw [enrichExceptionStep_of_nil gc ex h]⟩
  by_cases hc : ex.context = []
  · rw [enrichExceptionStep_of_nil gc ex hc]
    exact enrichExceptionStep_of_ne_nil gc _ (by simp)
  · simp only [enrichExceptionStep_of_ne_nil gc ex hc]

/-- Witness for C7 at a concrete transition and exceptions: enrichment applied
twice equals enrichment applied once, and an exception that already carries
context is returned unchanged. -/
theorem enrichment_idempotent_witness :
    enrichExceptionStep ⟨Transition.kBeginJob, "p"⟩
        (enrichExceptionStep ⟨Transition.kBeginJob, "p"⟩ ⟨"m", []⟩)
      = enrichExceptionStep ⟨Transition.kBeginJob, "p"⟩ ⟨"m", []⟩
    ∧ enrichExceptionStep ⟨Transition.kBeginJob, "p"⟩ ⟨"m", ["earlier"]⟩
      = ⟨"m", ["earlier"]⟩ :=
  ⟨(enrichment_idempotent ⟨Transition.kBeginJob, "p"⟩ ⟨"m", []⟩).1,
   (enrichment_idempotent ⟨Transition.kBeginJob, "p"⟩ ⟨"m", ["earlier"]⟩).2.1
     (by decide)⟩

/-- C8: any exception raised by the early-termination broadcast inside
`handleException` is swallowed — the in/out exception slot holds exactly the
enriched original exception whatever the broadcast outcome is, so the result
never depends on (nor equals) an exception originating from the broadcast. -/
theorem handleException_broadcast_swallowed (gc : GlobalContext)
    (cleaningUp : Bool) (broadcastOutcome : Option CmsException)
    (ex : CmsException) :
    handleException gc cleaningUp broadcastOutcome ex = enrichExceptionStep gc ex
    ∧ ∀ e : CmsException,
        handleException gc cleaningUp (some e) ex
          = handleException gc cleaningUp none ex := by
  refine ⟨?_, fun e => rfl⟩
  cases broadcastOutcome <;> rfl

/-- C2: the pre-begin-job signal failing skips the job-slot transition (state
unchanged) while the post-begin-job signal is still invoked; the earliest
pending failure is the one rethrown, a post-signal failure being kept only
when nothing failed before it. -/
theorem beginJob_signal_ordering (gs : GlobalSchedule) (env : SignalOutcomes) :
    (gs.beginJob env).postSignalInvoked = true
    ∧ (∀ ex, env.preSignal = some ex →
        (gs.beginJob env).schedule = gs
        ∧ (gs.beginJob env).thrown
            = some (exceptionContextAdd ex
                ⟨Transition.kBeginJob, gs.processContext⟩
                "Handling pre signal, likely in a service function"))
    ∧ (env.preSignal = none → ∀ t, env.transitionFailure = some t →
        (gs.beginJob env).thrown = some t)
    ∧ (env.preSignal = none → env.transitionFailure = none →
        ∀ p, env.postSignal = some p →
        (gs.beginJob env).thrown
          = some (exceptionContextAdd p
              ⟨Transition.kBeginJob, gs.processContext⟩
              "Handling post signal, likely in a service function")) := by
  rcases gs with ⟨L, R, P, pc, ms⟩
  rcases env with ⟨pre, trans, post⟩
  cases pre <;> cases trans <;> cases post <;>
    simp [GlobalSchedule.beginJob]

/-- Witness for C2 at a concrete schedule, with the pre-begin-job signal and
the post-begin-job signal both failing: the state is unchanged and the
pre-signal's enriched exception is the one rethrown. -/
theorem beginJob_signal_ordering_witness :
    (sampleSchedule.beginJob ⟨some ⟨"boom", []⟩, none, some ⟨"post", []⟩⟩).schedule
        = sampleSchedule
    ∧ (sampleSchedule.beginJob ⟨some ⟨"boom", []⟩, none, some ⟨"post", []⟩⟩).thrown
        = some (exceptionContextAdd ⟨"boom", []⟩
            ⟨Transition.kBeginJob, sampleSchedule.processContext⟩
            "Handling pre signal, likely in a service function") :=
  (beginJob_signal_ordering sampleSchedule
    ⟨some ⟨"boom", []⟩, none, some ⟨"post", []⟩⟩).2.1 ⟨"boom", []⟩ rfl

/-- C4: `endJob` never throws to its caller — whatever the pre-end-job and
post-end-job signals do, the thrown slot of the result is `none`, the
post-end-job signal is always invoked, and failures are routed into the
collector: a pre-signal failure wins over (and discards) a post-signal
failure and suppresses the per-Worker end-job run, otherwise the per-Worker
failures are collected followed by the post-signal failure when there is
one. -/
theorem endJob_never_throws (gs : GlobalSchedule) (env : EndJobOutcomes)
    (col : ExceptionCollector) :
    (gs.endJob env col).thrown = none
    ∧ (gs.endJob env col).postSignalInvoked = true
    ∧ (∀ ex, env.preSignal = some ex →
        (gs.endJob env col).collector.exceptions
          = col.exceptions
              ++ [exceptionContextAdd ex ⟨Transition.kEndJob, gs.processContext⟩
                    "Handling pre signal, likely in a service function"])
    ∧ (env.preSignal = none → ∀ p, env.postSignal = some p →
        (gs.endJob env col).collector.exceptions
          = col.exceptions ++ env.workerFailures
              ++ [exceptionContextAdd p ⟨Transition.kEndJob, gs.processContext⟩
                    "Handling post signal, likely in a service function"])
    ∧ (env.preSignal = none → env.postSignal = none →
        (gs.endJob env col).collector.exceptions
          = col.exceptions ++ env.workerFailures) := by
  rcases gs with ⟨L, R, P, pc, ms⟩
  rcases env with ⟨pre, fails, post⟩
  cases pre <;> cases post <;>
    simp [GlobalSchedule.endJob, WorkerManager.endJobRun,
      ExceptionCollector.callRethrow]

/-- Witness for C4 at a concrete schedule with two per-Worker end-job failures
and a failing post-end-job signal: nothing is thrown and the collector ends up
with both Worker failures followed by the enriched post-signal failure. -/
theorem endJob_never_throws_witness :
    (sampleSchedule.endJob ⟨none, [⟨"w1", []⟩, ⟨"w2", []⟩], some ⟨"post", []⟩⟩
        ⟨[]⟩).thrown = none
    ∧ (sampleSchedule.endJob ⟨none, [⟨"w1", []⟩, ⟨"w2", []⟩], some ⟨"post", []⟩⟩
        ⟨[]⟩).collector.exceptions
      = [] ++ [⟨"w1", []⟩, ⟨"w2", []⟩]
          ++ [exceptionContextAdd ⟨"post", []⟩
                ⟨Transition.kEndJob, sampleSchedule.processContext⟩
                "Handling post signal, likely in a service function"] :=
  ⟨(endJob_never_throws sampleSchedule
      ⟨none, [⟨"w1", []⟩, ⟨"w2", []⟩], some ⟨"post", []⟩⟩ ⟨[]⟩).1,
   (endJob_never_throws sampleSchedule
      ⟨none, [⟨"w1", []⟩, ⟨"w2", []⟩], some ⟨"post", []⟩⟩ ⟨[]⟩).2.2.2.1 rfl
      ⟨"post", []⟩ rfl⟩

theorem modifyAt_getElem?_ne (f : WorkerManager → WorkerManager) :
    ∀ (n : Nat) (l : List WorkerManager) (i : Nat), i ≠ n →
      (modifyAt f n l)[i]? = l[i]?
  | _, [], _, _ => by simp [modifyAt]
  | 0, wm :: rest, 0, h => absurd rfl h
  | 0, wm :: rest, i + 1, _ => by simp [modifyAt]
  | n + 1, wm :: rest, 0, _ => by simp [modifyAt]
  | n + 1, wm :: rest, i + 1, h => by
      simpa [modifyAt] using
        modifyAt_getElem?_ne f n rest i (fun hh => h (congrArg Nat.succ hh))

theorem modifyAt_getElem?_eq (f : WorkerManager → WorkerManager) :
    ∀ (n : Nat) (l : List WorkerManager),
      (modifyAt f n l)[n]? = l[n]?.map f
  | _, [] => by simp [modifyAt]
  | 0, wm :: rest => by simp [modifyAt]
  | n + 1, wm :: rest => by simpa [modifyAt] using modifyAt_getElem?_eq f n rest

/-- C3: a `beginJob` invocation runs the begin-job transition against the
manager at the job slot index `L + R + P` only — every other slot is left
exactly as it was (its Workers receive zero begin-job invocations), and when
the pre-signal lets the transition run, the job slot's manager has run
begin-job on each of its Workers. -/
theorem beginJob_only_job_slot (gs : GlobalSchedule) (env : SignalOutcomes) :
    (∀ i, i ≠ gs.jobManagerIndex →
        (gs.beginJob env).schedule.workerManagers[i]?
          = gs.workerManagers[i]?)
    ∧ (env.preSignal = none →
        (gs.beginJob env).schedule.workerManagers[gs.jobManagerIndex]?
          = (gs.workerManagers[gs.jobManagerIndex]?).map
              (fun wm =>
                wm.beginJobRun ⟨Transition.kBeginJob, gs.processContext⟩)) := by
  rcases env with ⟨pre, trans, post⟩
  cases pre with
  | some ex =>
    refine ⟨fun i hi => ?_, fun h => by cases h⟩
    simp [GlobalSchedule.beginJob]
  | none =>
    refine ⟨fun i hi => ?_, fun h => ?_⟩
    · simpa [GlobalSchedule.beginJob] using
        modifyAt_getElem?_ne _ gs.jobManagerIndex gs.workerManagers i hi
    · simpa [GlobalSchedule.beginJob] using
        modifyAt_getElem?_eq _ gs.jobManagerIndex gs.workerManagers

/-- Witness for C3 at a concrete two-slot schedule (job slot index 1) with all
signals succeeding: slot 0 is untouched and slot 1 has run begin-job on its
Workers. -/
theorem beginJob_only_job_slot_witness :
    (sampleSchedule.beginJob ⟨none, none, none⟩).schedule.workerManagers[0]?
        = sampleSchedule.workerManagers[0]?
    ∧ (sampleSchedule.beginJob
          ⟨none, none, none⟩).schedule.workerManagers[sampleSchedule.jobManagerIndex]?
        = (sampleSchedule.workerManagers[sampleSchedule.jobManagerIndex]?).map
            (fun wm =>
              wm.beginJobRun ⟨Transition.kBeginJob, sampleSchedule.processContext⟩) :=
  ⟨(beginJob_only_job_slot sampleSchedule ⟨none, none, none⟩).1 0 (by decide),
   (beginJob_only_job_slot sampleSchedule ⟨none, none, none⟩).2 rfl⟩

lemma findWorkerWithLabel_eq_none (wm : WorkerManager) (label : String)
    (h : wm.hasLabel label = false) : wm.findWorkerWithLabel label = none := by
  rw [WorkerManager.findWorkerWithLabel, List.find?_eq_none]
  intro x hx hpx
  have ht : wm.hasLabel label = true := by
    rw [WorkerManager.hasLabel, List.any_eq_true]
    exact ⟨x, hx, hpx⟩
  rw [h] at ht
  cases ht

lemma deleteModuleIfExists_of_not_has (wm : WorkerManager) (label : String)
    (h : wm.hasLabel label = false) : wm.deleteModuleIfExists label = wm := by
  rw [WorkerManager.hasLabel] at h
  rw [WorkerManager.deleteModuleIfExists, List.filter_eq_self.mpr]
  · intro w hw
    have hfalse : (w.description.moduleLabel == label) = false := by
      by_contra hne
      have htrue : (w.description.moduleLabel == label) = true := by
        cases hb : (w.description.moduleLabel == label) with
        | true => rfl
        | false => exact absurd hb hne
      have : wm.workers.any (fun w => w.description.moduleLabel == label) = true :=
        List.any_eq_true.mpr ⟨w, hw, htrue⟩
      rw [h] at this
      cases this
    simp [hfalse]

/-- C6: for a label not bound to any Worker, both `replaceModule` and
`deleteModule` are frame-preserving no-ops — the coordinator's state is
unchanged (so in particular no exception-raising step is ever reached) and
`getAllModuleDescriptions` returns the same result before and after. -/
theorem unknown_label_noop (gs : GlobalSchedule) (newImpl : Nat) (label : String)
    (h : ∀ wm ∈ gs.workerManagers, wm.hasLabel label = false) :
    gs.replaceModule newImpl label = gs
    ∧ gs.deleteModule label = gs
    ∧ (gs.replaceModule newImpl label).getAllModuleDescriptions
        = gs.getAllModuleDescriptions
    ∧ (gs.deleteModule label).getAllModuleDescriptions
        = gs.getAllModuleDescriptions := by
  have hrep : gs.replaceModule newImpl label = gs := by
    rcases gs with ⟨L, R, P, pc, ms⟩
    cases ms with
    | nil => simp [GlobalSchedule.replaceModule, replaceModuleGo]
    | cons wm0 rest =>
      have h0 : wm0.hasLabel label = false := h wm0 (by simp)
      simp [GlobalSchedule.replaceModule, replaceModuleGo,
        findWorkerWithLabel_eq_none wm0 label h0]
  have hdel : gs.deleteModule label = gs := by
    rcases gs with ⟨L, R, P, pc, ms⟩
    have hmap : ms.map (fun wm => wm.deleteModuleIfExists label) = ms := by
      rw [List.map_congr_left
        (fun wm hw => deleteModuleIfExists_of_not_has wm label (h wm hw))]
      exact List.map_id ms
    simp [GlobalSchedule.deleteModule, hmap]
  exact ⟨hrep, hdel, by rw [hrep], by rw [hdel]⟩

/-- Witness for C6 at a concrete two-slot schedule and a label bound nowhere:
both operations leave the state and the module descriptions unchanged. -/
theorem unknown_label_noop_witness :
    sampleSchedule.replaceModule 7 "nonexistent" = sampleSchedule
    ∧ sampleSchedule.deleteModule "nonexistent" = sampleSchedule
    ∧ (sampleSchedule.replaceModule 7 "nonexistent").getAllModuleDescriptions
        = sampleSchedule.getAllModuleDescriptions
    ∧ (sampleSchedule.deleteModule "nonexistent").getAllModuleDescriptions
        = sampleSchedule.getAllModuleDescriptions :=
  unknown_label_noop sampleSchedule 7 "nonexistent" (by decide)

lemma allWorkersOf_map_description : ∀ ms : List WorkerManager,
    (allWorkersOf ms).map (fun w => w.description) = descriptionsSlotBySlot ms
  | [] => rfl
  | wm :: rest => by
      simp only [allWorkersOf, descriptionsSlotBySlot, List.map_append]
      rw [allWorkersOf_map_description rest]

lemma countP_descriptionsSlotBySlot (label : String) : ∀ ms : List WorkerManager,
    (∀ wm ∈ ms,
        wm.workers.countP (fun w => w.description.moduleLabel == label) = 1) →
      (descriptionsSlotBySlot ms).countP (fun d => d.moduleLabel == label)
        = ms.length
  | [], _ => rfl
  | wm :: rest, h => by
      have h0 := h wm (by simp)
      have ih := countP_descriptionsSlotBySlot label rest
        (fun x hx => h x (by simp [hx]))
      simp only [descriptionsSlotBySlot, List.countP_append, List.countP_map,
        List.length_cons]
      have hcomp :
          ((fun d : ModuleDescription => d.moduleLabel == label) ∘
            (fun w : Worker => w.description))
            = fun w : Worker => w.description.moduleLabel == label := rfl
      rw [hcomp, h0, ih]
      omega

/-- C9: `getAllModuleDescriptions` is the union, slot by slot across all
managers, of every Worker's descriptor; in particular when every slot holds
exactly one Worker for a label, that label's descriptor appears once per slot,
i.e. as many times as there are slots. The operation is a pure function of the
state. -/
theorem getAllModuleDescriptions_union (gs : GlobalSchedule) (label : String) :
    gs.getAllModuleDescriptions = descriptionsSlotBySlot gs.workerManagers
    ∧ ((∀ wm ∈ gs.workerManagers,
          wm.workers.countP (fun w => w.description.moduleLabel == label) = 1) →
        gs.getAllModuleDescriptions.countP (fun d => d.moduleLabel == label)
          = gs.workerManagers.length) := by
  have hu : gs.getAllModuleDescriptions = descriptionsSlotBySlot gs.workerManagers :=
    allWorkersOf_map_description gs.workerManagers
  refine ⟨hu, fun h => ?_⟩
  rw [hu]
  exact countP_descriptionsSlotBySlot label gs.workerManagers h

/-- Witness for C9 at a concrete two-slot schedule where each slot holds one
Worker labelled `a`: the descriptor list is the slot-by-slot union and label
`a` contributes one descriptor per slot. -/
theorem getAllModuleDescriptions_union_witness :
    sampleSchedule.getAllModuleDescriptions
        = descriptionsSlotBySlot sampleSchedule.workerManagers
    ∧ sampleSchedule.getAllModuleDescriptions.countP
          (fun d => d.moduleLabel == "a")
        = sampleSchedule.workerManagers.length :=
  ⟨(getAllModuleDescriptions_union sampleSchedule "a").1,
   (getAllModuleDescriptions_union sampleSchedule "a").2 (by decide)⟩

lemma getWorker_hasLabel_self (wm : WorkerManager) (label : String) (fresh : Nat) :
    ((wm.getWorker label fresh).1).hasLabel label = true := by
  rw [WorkerManager.getWorker]
  split
  · next h => exact h
  · simp [WorkerManager.hasLabel, List.any_append]

lemma getWorker_hasLabel_mono (wm : WorkerManager) (label : String) (fresh : Nat)
    (x : String) (h : wm.hasLabel x = true) :
    ((wm.getWorker label fresh).1).hasLabel x = true := by
  rw [WorkerManager.getWorker]
  split
  · exact h
  · have h2 := h
    rw [WorkerManager.hasLabel] at h2
    simp [WorkerManager.hasLabel, List.any_append, h2]

lemma addWorkerAllManagers_length (label : String) :
    ∀ (ms : List WorkerManager) (fresh : Nat),
      ((addWorkerAllManagers label ms fresh).1).length = ms.length
  | [], _ => rfl
  | wm :: rest, fresh => by
      simp only [addWorkerAllManagers, List.length_cons]
      rw [addWorkerAllManagers_length label rest]

lemma addWorkerAllManagers_allHave_self (label : String) :
    ∀ (ms : List WorkerManager) (fresh : Nat),
      allHave (addWorkerAllManagers label ms fresh).1 label
  | [], _ => by intro wm hw; cases hw
  | wm :: rest, fresh => by
      intro wm2 hw
      simp only [addWorkerAllManagers] at hw
      rcases List.mem_cons.mp hw with h1 | h2
      · rw [h1]; exact getWorker_hasLabel_self wm label fresh
      · exact addWorkerAllManagers_allHave_self label rest _ wm2 h2

lemma addWorkerAllManagers_allHave_mono (label x : String) :
    ∀ (ms : List WorkerManager) (fresh : Nat), allHave ms x →
      allHave (addWorkerAllManagers label ms fresh).1 x
  | [], _, _ => by intro wm hw; cases hw
  | wm :: rest, fresh, h => by
      intro wm2 hw
      simp only [addWorkerAllManagers] at hw
      rcases List.mem_cons.mp hw with h1 | h2
      · rw [h1]; exact getWorker_hasLabel_mono wm label fresh x (h wm (by simp))
      · exact addWorkerAllManagers_allHave_mono label x rest _
          (fun u hu => h u (by simp [hu])) wm2 h2

lemma addModulesToUse_length (config : String → Bool) :
    ∀ (ls : List String) (ms : List WorkerManager) (fresh : Nat),
      ((addModulesToUse config ls ms fresh).1).length = ms.length
  | [], _, _ => rfl
  | l :: rest, ms, fresh => by
      simp only [addModulesToUse]
      split
      · rw [addModulesToUse_length config rest, addWorkerAllManagers_length]
      · rw [addModulesToUse_length config rest]

lemma addModulesToUse_allHave_mono (config : String → Bool) (x : String) :
    ∀ (ls : List String) (ms : List WorkerManager) (fresh : Nat), allHave ms x →
      allHave (addModulesToUse config ls ms fresh).1 x
  | [], _, _, h => h
  | l :: rest, ms, fresh, h => by
      simp only [addModulesToUse]
      split
      · exact addModulesToUse_allHave_mono config x rest _ _
          (addWorkerAllManagers_allHave_mono l x ms fresh h)
      · exact addModulesToUse_allHave_mono config x rest _ _ h

lemma addModulesToUse_allHave_of_mem (config : String → Bool) :
    ∀ (ls : List String) (ms : List WorkerManager) (fresh : Nat) (l : String),
      l ∈ ls → config l = true →
      allHave (addModulesToUse config ls ms fresh).1 l
  | [], _, _, l, hmem, _ => absurd hmem (List.not_mem_nil l)
  | l0 :: rest, ms, fresh, l, hmem, hcfg => by
      rcases List.mem_cons.mp hmem with h1 | h2
      · subst h1
        simp only [addModulesToUse, if_pos hcfg]
        exact addModulesToUse_allHave_mono config l rest _ _
          (addWorkerAllManagers_allHave_self l ms fresh)
      · simp only [addModulesToUse]
        split
        · exact addModulesToUse_allHave_of_mem config rest _ _ l h2 hcfg
        · exact addModulesToUse_allHave_of_mem config rest _ _ l h2 hcfg

lemma addInserterList_length :
    ∀ (ls : List String) (ms : List WorkerManager) (fresh : Nat),
      ((addInserterList ls ms fresh).1).length = ms.length
  | [], _, _ => rfl
  | l :: rest, ms, fresh => by
      simp only [addInserterList]
      rw [addInserterList_length rest, addWorkerAllManagers_length]

lemma addInserterList_allHave_mono (x : String) :
    ∀ (ls : List String) (ms : List WorkerManager) (fresh : Nat), allHave ms x →
      allHave (addInserterList ls ms fresh).1 x
  | [], _, _, h => h
  | l :: rest, ms, fresh, h => by
      simp only [addInserterList]
      exact addInserterList_allHave_mono x rest _ _
        (addWorkerAllManagers_allHave_mono l x ms fresh h)

lemma addInserterList_allHave_of_mem :
    ∀ (ls : List String) (ms : List WorkerManager) (fresh : Nat) (l : String),
      l ∈ ls → allHave (addInserterList ls ms fresh).1 l
  | [], _, _, l, hmem => absurd hmem (List.not_mem_nil l)
  | l0 :: rest, ms, fresh, l, hmem => by
      rcases List.mem_cons.mp hmem with h1 | h2
      · subst h1
        simp only [addInserterList]
        exact addInserterList_allHave_mono l rest _ _
          (addWorkerAllManagers_allHave_self l ms fresh)
      · simp only [addInserterList]
        exact addInserterList_allHave_of_mem rest _ _ l h2

/-- C1: construction with slot counts (L, R, P) allocates exactly
`L + R + P + 1` WorkerManagers, and every one of them contains a Worker for
each module label whose configuration lookup succeeds as well as for each
special inserter module — the symmetry invariant as a postcondition of
construction. -/
theorem construct_symmetry (L R P : Nat) (pc : String)
    (modulesToUse : List String) (config : String → Bool)
    (inserter : Option String)
    (pathStatusInserters endPathStatusInserters : List String)
    (gs : GlobalSchedule)
    (hgs : gs = GlobalSchedule.construct L R P pc modulesToUse config inserter
        pathStatusInserters endPathStatusInserters)
    (hconfig : ∀ l ∈ modulesToUse, config l = true) :
    gs.workerManagers.length = L + R + P + 1
    ∧ ∀ wm ∈ gs.workerManagers,
        (∀ l ∈ modulesToUse, wm.hasLabel l = true)
        ∧ (∀ lbl, inserter = some lbl → wm.hasLabel lbl = true)
        ∧ (∀ l ∈ pathStatusInserters, wm.hasLabel l = true)
        ∧ (∀ l ∈ endPathStatusInserters, wm.hasLabel l = true) := by
  subst hgs
  cases inserter with
  | none =>
    simp only [GlobalSchedule.construct]
    constructor
    · rw [addInserterList_length, addInserterList_length, addModulesToUse_length,
        List.length_replicate]
    · intro wm hw
      refine ⟨fun l hl => ?_, fun lbl hlbl => ?_, fun l hl => ?_, fun l hl => ?_⟩
      case refine_2 => cases hlbl
      · exact addInserterList_allHave_mono l _ _ _
          (addInserterList_allHave_mono l _ _ _
            (addModulesToUse_allHave_of_mem config _ _ _ l hl (hconfig l hl)))
          wm hw
      · exact addInserterList_allHave_mono l _ _ _
          (addInserterList_allHave_of_mem _ _ _ l hl) wm hw
      · exact addInserterList_allHave_of_mem _ _ _ l hl wm hw
  | some lbl0 =>
    simp only [GlobalSchedule.construct]
    constructor
    · rw [addInserterList_length, addInserterList_length,
        addWorkerAllManagers_length, addModulesToUse_length,
        List.length_replicate]
    · intro wm hw
      refine ⟨fun l hl => ?_, fun lbl hlbl => ?_, fun l hl => ?_, fun l hl => ?_⟩
      · exact addInserterList_allHave_mono l _ _ _
          (addInserterList_allHave_mono l _ _ _
            (addWorkerAllManagers_allHave_mono lbl0 l _ _
              (addModulesToUse_allHave_of_mem config _ _ _ l hl (hconfig l hl))))
          wm hw
      · cases hlbl
        exact addInserterList_allHave_mono lbl0 _ _ _
          (addInserterList_allHave_mono lbl0 _ _ _
            (addWorkerAllManagers_allHave_self lbl0 _ _)) wm hw
      · exact addInserterList_allHave_mono l _ _ _
          (addInserterList_allHave_of_mem _ _ _ l hl) wm hw
      · exact addInserterList_allHave_of_mem _ _ _ l hl wm hw

/-- Witness for C1 at a concrete construction with slot counts (1, 0, 0),
module labels `a` and `b`, a trigger-result inserter `TR` and a path-status
inserter `ps1`: two slots are allocated and slot 0 holds a Worker for each of
`a`, `TR` and `ps1`. -/
theorem construct_symmetry_witness :
    constructedSchedule.workerManagers.length = 1 + 0 + 0 + 1
    ∧ constructedManager0.hasLabel "a" = true
    ∧ constructedManager0.hasLabel "TR" = true
    ∧ constructedManager0.hasLabel "ps1" = true :=
  have main := construct_symmetry 1 0 0 "pc" ["a", "b"] (fun _ => true)
    (some "TR") ["ps1"] [] constructedSchedule rfl (by decide)
  have hm := main.2 constructedManager0 (by decide)
  ⟨main.1, hm.1 "a" (by decide), hm.2.1 "TR" rfl, hm.2.2.1 "ps1" (by decide)⟩

lemma allIds_append : ∀ a b : List WorkerManager,
    allIds (a ++ b) = allIds a ++ allIds b
  | [], b => rfl
  | wm :: rest, b => by
      rw [List.cons_append]
      show idsOf wm ++ allIds (rest ++ b) = (idsOf wm ++ allIds rest) ++ allIds b
      rw [allIds_append rest b, List.append_assoc]

lemma mapWorkerById_eq_self (wm : WorkerManager) (fid : Nat) (f : Worker → Worker)
    (h : fid ∉ idsOf wm) : wm.mapWorkerById fid f = wm := by
  simp only [idsOf] at h
  rw [WorkerManager.mapWorkerById]
  have h2 : ∀ w ∈ wm.workers, (if w.workerId == fid then f w else w) = id w := by
    intro w hw
    have hne : w.workerId ≠ fid := fun he => h (List.mem_map.mpr ⟨w, hw, he⟩)
    simp [hne]
  rw [List.map_congr_left h2, List.map_id]

lemma mapWorkerByIdAll_eq_self (fid : Nat) (f : Worker → Worker) :
    ∀ ms : List WorkerManager, fid ∉ allIds ms → mapWorkerByIdAll ms fid f = ms
  | [], _ => rfl
  | wm :: rest, h => by
      simp only [allIds, List.mem_append, not_or] at h
      show wm.mapWorkerById fid f :: mapWorkerByIdAll rest fid f = wm :: rest
      rw [mapWorkerById_eq_self wm fid f h.1,
        mapWorkerByIdAll_eq_self fid f rest h.2]

lemma countP_one_unique (l : List Worker) (p : Worker → Bool)
    (h : l.countP p = 1) :
    ∃ w, l.find? p = some w ∧ p w = true ∧ ∀ x ∈ l, p x = true → x = w := by
  rw [List.countP_eq_length_filter] at h
  rcases List.length_eq_one.mp h with ⟨w, hw⟩
  have hwmem : w ∈ l.filter p := by simp [hw]
  have hwl : w ∈ l := (List.mem_filter.mp hwmem).1
  have hwp : p w = true := (List.mem_filter.mp hwmem).2
  have hsome : (l.find? p).isSome := List.find?_isSome.mpr ⟨w, hwl, hwp⟩
  rcases Option.isSome_iff_exists.mp hsome with ⟨v, hv⟩
  have hvw : v = w := by
    have hvf : v ∈ l.filter p :=
      List.mem_filter.mpr ⟨List.mem_of_find?_eq_some hv, List.find?_some hv⟩
    rw [hw] at hvf
    exact List.mem_singleton.mp hvf
  subst hvw
  refine ⟨v, hv, List.find?_some hv, fun x hx hpx => ?_⟩
  have hxf : x ∈ l.filter p := List.mem_filter.mpr ⟨hx, hpx⟩
  rw [hw] at hxf
  exact List.mem_singleton.mp hxf

lemma mapWorkerById_found (wm : WorkerManager) (label : String) (w : Worker)
    (f : Worker → Worker) (hnodup : (idsOf wm).Nodup)
    (hfind : wm.workers.find? (fun x => x.description.moduleLabel == label)
        = some w)
    (huniq : ∀ x ∈ wm.workers,
        (x.description.moduleLabel == label) = true → x = w) :
    wm.mapWorkerById w.workerId f
      = ⟨wm.workers.map (fun x =>
          if x.description.moduleLabel == label then f x else x)⟩ := by
  rw [WorkerManager.mapWorkerById]
  congr 1
  apply List.map_congr_left
  intro x hx
  have hwl : w ∈ wm.workers := List.mem_of_find?_eq_some hfind
  by_cases hid : x.workerId = w.workerId
  · have hxw : x = w := by
      simp only [idsOf] at hnodup
      exact List.inj_on_of_nodup_map hnodup hx hwl hid
    rw [hxw]
    simp [List.find?_some hfind]
  · have hxlab : (x.description.moduleLabel == label) = false := by
      rcases Bool.eq_false_or_eq_true (x.description.moduleLabel == label) with
        hb | hb
      · exact absurd (by rw [huniq x hx hb]) hid
      · exact hb
    have hxid : (x.workerId == w.workerId) = false := by
      simp [hid]
    simp [hxid, hxlab]

lemma idsOf_specOne (newImpl : Nat) (label : String) (b : Bool) (pc : String)
    (wm : WorkerManager) :
    idsOf (replaceModuleSpecOne newImpl label b pc wm) = idsOf wm := by
  simp only [idsOf, replaceModuleSpecOne, List.map_map]
  apply List.map_congr_left
  intro x hx
  simp only [Function.comp]
  split
  · cases b <;> simp [replaceF, Worker.beginJob]
  · rfl

lemma replaceModuleGo_spec (newImpl : Nat) (label : String) (jobIdx : Nat)
    (pc : String) :
    ∀ (rest done : List WorkerManager) (idx : Nat) (found : Option Nat),
      (∀ wm ∈ rest,
          wm.workers.countP (fun w => w.description.moduleLabel == label) = 1) →
      (allIds (done ++ rest)).Nodup →
      replaceModuleGo newImpl label jobIdx pc found idx done rest
        = done ++ replaceModuleSpecFrom newImpl label jobIdx pc idx rest
  | [], done, idx, found, _, _ => by
      simp [replaceModuleGo, replaceModuleSpecFrom]
  | wm :: rest2, done, idx, found, hcount, hnodup => by
      rcases countP_one_unique wm.workers
          (fun w => w.description.moduleLabel == label)
          (hcount wm (by simp)) with ⟨w, hfind, hwp, huniq⟩
      have hfind2 : wm.findWorkerWithLabel label = some w := hfind
      have hwid : w.workerId ∈ idsOf wm := by
        simp only [idsOf]
        exact List.mem_map.mpr ⟨w, List.mem_of_find?_eq_some hfind, rfl⟩
      have hsplit : allIds (done ++ wm :: rest2)
          = allIds done ++ (idsOf wm ++ allIds rest2) := by
        rw [allIds_append]
        rfl
      rw [hsplit] at hnodup
      rcases List.nodup_append.mp hnodup with ⟨hnd, hnm, hdisj⟩
      rcases List.nodup_append.mp hnm with ⟨hnwm, hnrest, hdisj2⟩
      have hnotdone : w.workerId ∉ allIds done := fun hc =>
        (hdisj hc (List.mem_append.mpr (Or.inl hwid))).elim
      have hnotrest : w.workerId ∉ allIds rest2 := fun hc =>
        (hdisj2 hwid hc).elim
      rw [replaceModuleGo, hfind2]
      simp only
      rw [mapWorkerByIdAll_eq_self _ _ done hnotdone,
        mapWorkerByIdAll_eq_self _ _ rest2 hnotrest,
        mapWorkerById_found wm label w _ hnwm hfind huniq]
      have hone : (⟨wm.workers.map (fun x =>
          if x.description.moduleLabel == label then
            replaceF newImpl (idx == jobIdx) pc x
          else x)⟩ : WorkerManager)
          = replaceModuleSpecOne newImpl label (idx == jobIdx) pc wm := rfl
      rw [hone]
      have hrec := replaceModuleGo_spec newImpl label jobIdx pc rest2
        (done ++ [replaceModuleSpecOne newImpl label (idx == jobIdx) pc wm])
        (idx + 1) (some w.workerId)
        (fun u hu => hcount u (by simp [hu]))
        (by
          rw [allIds_append, allIds_append]
          simp only [allIds, List.append_nil, idsOf_specOne]
          rw [List.append_assoc, List.nodup_append]
          exact ⟨hnd, hnm, hdisj⟩)
      rw [hrec, replaceModuleSpecFrom]
      simp

/-- C5: under the symmetry precondition (every manager holds exactly one
Worker for the label, Worker identities distinct), `replaceModule` swaps the
implementation handle of that label's own Worker in every slot — identity and
descriptor preserved — and exactly the job slot's Worker additionally receives
one fresh begin-job invocation with a newly built GlobalContext of kind
`kBeginJob`; Workers of other slots receive zero begin-job invocations. The
per-slot effect is spelled out by `replaceModuleSpecOne` via
`replaceModuleSpecFrom`. -/
theorem replaceModule_symmetric (gs : GlobalSchedule) (newImpl : Nat)
    (label : String)
    (hcount : ∀ wm ∈ gs.workerManagers,
        wm.workers.countP (fun w => w.description.moduleLabel == label) = 1)
    (hids : (allIds gs.workerManagers).Nodup) :
    gs.replaceModule newImpl label
      = { gs with
          workerManagers :=
            replaceModuleSpecFrom newImpl label gs.jobManagerIndex
              gs.processContext 0 gs.workerManagers } := by
  simp only [GlobalSchedule.replaceModule]
  rw [replaceModuleGo_spec newImpl label gs.jobManagerIndex gs.processContext
    gs.workerManagers [] 0 none hcount hids]
  rfl

/-- Witness for C5 at a concrete symmetric two-slot schedule holding labels
`a` and `b` with distinct Worker identities. -/
theorem replaceModule_symmetric_witness :
    sampleSchedule.replaceModule 7 "a"
      = { sampleSchedule with
          workerManagers :=
            replaceModuleSpecFrom 7 "a" sampleSchedule.jobManagerIndex
              sampleSchedule.processContext 0 sampleSchedule.workerManagers } :=
  replaceModule_symmetric sampleSchedule 7 "a" (by decide) (by decide)

/-- C10: in `replaceModule` the search result is not reset between manager
iterations. First conjunct: the early return on a missing label can only fire
off the first manager — when the first manager lacks the label the whole call
is a no-op. Second conjunct: on a state where label `a` exists in slot 0 but
not in the job slot (index 1), the call does not return or skip the job slot —
it applies the replacement again to the Worker found in slot 0, which is the
Worker that also receives the job-slot begin-job invocation, while the job
slot's own Worker is untouched. -/
theorem replaceModule_stale_found :
    (∀ (gs : GlobalSchedule) (newImpl : Nat) (label : String)
        (wm0 : WorkerManager) (rest : List WorkerManager),
        gs.workerManagers = wm0 :: rest →
        wm0.findWorkerWithLabel label = none →
        gs.replaceModule newImpl label = gs)
    ∧ staleSchedule.replaceModule 7 "a"
        = ⟨1, 0, 0, "pc",
           [⟨[⟨0, ⟨"a"⟩, 7, [⟨Transition.kBeginJob, "pc"⟩]⟩]⟩,
            ⟨[⟨1, ⟨"b"⟩, 0, []⟩]⟩]⟩ := by
  constructor
  · intro gs newImpl label wm0 rest hms hnone
    rcases gs with ⟨L, R, P, pc, ms⟩
    change ms = wm0 :: rest at hms
    subst hms
    simp [GlobalSchedule.replaceModule, replaceModuleGo, hnone]
  · simp [staleSchedule, GlobalSchedule.replaceModule,
      GlobalSchedule.jobManagerIndex, replaceModuleGo,
      WorkerManager.findWorkerWithLabel, mapWorkerByIdAll,
      WorkerManager.mapWorkerById, replaceF, Worker.beginJob]

/-- Witness for C10's early-return conjunct at a concrete schedule whose first
manager lacks the label: the call leaves the schedule unchanged. -/
theorem replaceModule_stale_found_witness :
    staleSchedule.replaceModule 9 "b" = staleSchedule :=
  replaceModule_stale_found.1 staleSchedule 9 "b" ⟨[⟨0, ⟨"a"⟩, 0, []⟩]⟩
    [⟨[⟨1, ⟨"b"⟩, 0, []⟩]⟩] rfl rfl

end GlobalScheduleModel
